import Mathlib

/-!
Verification of the SSD300 hub entrypoint layer
(`PyTorch/Detection/SSD/ssd/entrypoints.py`).

Python strings are modelled as `List Char`; Python dicts (which preserve
insertion order, update values of existing keys in place, and append new
keys at the end) are modelled as ordered association lists `List (List Char × V)`
together with the insertion function `dinsert`.  Machine floats appearing as
detection confidences are modelled as `Option α` over a linear order, where
`none` plays the role of IEEE NaN: every ordered comparison involving `none`
is false (`fgt`).  Filesystem and download effects of `_download_checkpoint`
are modelled by explicit state passing (`FSState`).
-/

/-- The literal string `"module."` searched for by `checkpoint_from_distributed`
and replaced by `unwrap_distributed`. -/
def moduleDotS : String := "module."

/-- `"module."` as a character list. -/
def moduleDot : List Char := moduleDotS.data

/-- The literal string `"module.1."` replaced first by `unwrap_distributed`. -/
def moduleDot1S : String := "module.1."

/-- `"module.1."` as a character list. -/
def moduleDot1 : List Char := moduleDot1S.data

/-- Python `s.find(pat)`: index of the leftmost occurrence of `pat` in `s`,
or `-1` when there is none. -/
def pyFind (s pat : List Char) : Int :=
  match (List.range (s.length + 1)).find? (fun i => pat.isPrefixOf (s.drop i)) with
  | some i => (i : Int)
  | none => -1

/-- Helper for `removeOcc`, structurally recursive on a fuel bound that
dominates the length of the remaining string. -/
def removeOccAux (pat : List Char) : Nat → List Char → List Char
  | _, [] => []
  | 0, s => s
  | fuel + 1, c :: rest =>
    if 0 < pat.length ∧ pat.isPrefixOf (c :: rest) then
      removeOccAux pat fuel ((c :: rest).drop pat.length)
    else
      c :: removeOccAux pat fuel rest

/-- Python `s.replace(pat, '')`: delete every occurrence of `pat` from `s`,
scanning left to right, non-overlapping. -/
def removeOcc (pat s : List Char) : List Char :=
  removeOccAux pat s.length s

/-- Ordered-dict insertion, matching Python `d[k] = v`: an existing key keeps
its position and gets the new value, a new key is appended at the end. -/
def dinsert {V : Type} (d : List (List Char × V)) (k : List Char) (v : V) :
    List (List Char × V) :=
  if d.any (fun kv => kv.1 == k) then
    d.map (fun kv => if kv.1 == k then (k, v) else kv)
  else
    d ++ [(k, v)]

/-- `checkpoint_from_distributed(state_dict)`: true iff some key has an
occurrence of `"module."` (`key.find('module.') != -1`). -/
def checkpoint_from_distributed {V : Type} (state_dict : List (List Char × V)) : Bool :=
  state_dict.any (fun kv => pyFind kv.1 moduleDot != -1)

/-- The key transformation applied by `unwrap_distributed` to each key:
`key.replace('module.1.', '').replace('module.', '')`. -/
def stripKey (k : List Char) : List Char :=
  removeOcc moduleDot (removeOcc moduleDot1 k)

/-- `unwrap_distributed(state_dict)`: build a fresh dict, inserting
`(stripKey k, v)` for each entry of the input in order. -/
def unwrap_distributed {V : Type} (state_dict : List (List Char × V)) :
    List (List Char × V) :=
  state_dict.foldl (fun acc kv => dinsert acc (stripKey kv.1) kv.2) []

/-- The checkpoint-key step of `nvidia_ssd` (lines 203-204): unwrap exactly
when `checkpoint_from_distributed` holds. -/
def nvidia_ssd_ckpt {V : Type} (ckpt : List (List Char × V)) :
    List (List Char × V) :=
  if checkpoint_from_distributed ckpt then unwrap_distributed ckpt else ckpt

/-- Heap-level model of `unwrap_distributed`'s allocation behaviour: dicts
live at heap addresses; `new_state_dict = {}` allocates a fresh address at
the end of the heap, the loop fills only that address, and the input
address is never written. -/
def unwrapHeap {V : Type} (heap : List (List (List Char × V))) (addr : Nat) :
    List (List (List Char × V)) × Nat :=
  (heap ++ [unwrap_distributed (heap.getD addr [])], heap.length)

/-- IEEE-style strict greater-than on machine floats, modelled as values of a
linear order extended with `none` for NaN: any comparison involving NaN is
false.  This is the semantics of numpy's `confidences > threshold`. -/
def fgt {γ : Type} [LinearOrder γ] : Option γ → Option γ → Bool
  | some a, some b => decide (b < a)
  | _, _ => false

/-- `np.argwhere(confidences > threshold)[:, 0]`: the strictly ascending list
of indices whose confidence strictly exceeds the threshold. -/
def argwhereGt {γ : Type} [LinearOrder γ] : List (Option γ) → Option γ → List Nat
  | [], _ => []
  | c :: cs, t => (if fgt c t then [0] else []) ++ (argwhereGt cs t).map (· + 1)

/-- Numpy fancy indexing `arr[best]` for an index list `best`. -/
def npIndex {β : Type} (l : List β) (d : β) (idx : List Nat) : List β :=
  idx.map (fun i => l.getD i d)

/-- `Processing.pick_best(detections, threshold=0.3)`: unpack the three
parallel arrays, compute `best = np.argwhere(confidences > threshold)[:, 0]`,
and index each array by `best`.  `da`/`db` are irrelevant defaults for the
(never exercised) out-of-range case of `getD`. -/
def pick_best {α β γ : Type} [LinearOrder γ] (bboxes : List α) (classes : List β)
    (confidences : List (Option γ)) (threshold : Option γ) (da : α) (db : β) :
    List α × List β × List (Option γ) :=
  let best := argwhereGt confidences threshold
  (npIndex bboxes da best, npIndex classes db best, npIndex confidences none best)

/-- `os.path.basename`: everything after the final `'/'`. -/
def basename (p : List Char) : List Char :=
  (p.splitOn '/').getLastD []

/-- Explicit filesystem-and-download state threaded through
`_download_checkpoint`: `files` maps paths to contents, `downloads` logs the
URLs fetched by `urllib.request.urlretrieve`. -/
structure FSState where
  files : List (List Char × List Char)
  downloads : List (List Char)

/-- `os.path.exists` on the modelled filesystem. -/
def fsHasFile (files : List (List Char × List Char)) (p : List Char) : Bool :=
  files.any (fun f => f.1 == p)

/-- Association-list lookup (the contents stored at a path / key). -/
def dget {V : Type} (d : List (List Char × V)) (k : List Char) : Option V :=
  (d.find? (fun kv => kv.1 == k)).map Prod.snd

/-- `model_dir = os.path.join(torch.hub._get_torch_home(), 'checkpoints')`. -/
def model_dir (torchHome : List Char) : List Char :=
  torchHome ++ '/' :: ("checkpoints").data

/-- `ckpt_file = os.path.join(model_dir, os.path.basename(checkpoint))`. -/
def ckpt_file_path (torchHome checkpoint : List Char) : List Char :=
  model_dir torchHome ++ '/' :: basename checkpoint

/-- `_download_checkpoint(checkpoint, force_reload)`: compute the cache path;
if the file does not exist or `force_reload` is set, retrieve the URL into
the cache file; return the cache path.  (`os.makedirs` touches only
directories and is not modelled.) -/
def _download_checkpoint (torchHome : List Char) (fetch : List Char → List Char)
    (st : FSState) (checkpoint : List Char) (force_reload : Bool) :
    FSState × List Char :=
  if !fsHasFile st.files (ckpt_file_path torchHome checkpoint) || force_reload then
    ({ files := dinsert st.files (ckpt_file_path torchHome checkpoint)
          (fetch checkpoint),
       downloads := st.downloads ++ [checkpoint] },
     ckpt_file_path torchHome checkpoint)
  else
    (st, ckpt_file_path torchHome checkpoint)

/-- `Processing.rescale(img, input_height, input_width)` modelled over the
image shape.  `aspect = img.shape[1] / float(img.shape[0])`; Python float
division is modelled as exact rational division.  The three independent
`if` statements assign `imgScaled`, modelled as an `Option` that starts as
`none` (the unassigned local) and records the shape handed to
`transform.resize`; `int(...)` truncation is `Int.floor` (the operands are
nonnegative here, where truncation and floor agree). -/
def rescale (shape0 shape1 input_height input_width : Nat) : Option (Nat × Nat) :=
  let aspect : ℚ := (shape1 : ℚ) / (shape0 : ℚ)
  let r0 : Option (Nat × Nat) := none
  let r1 :=
    if aspect > 1 then
      some (input_width, (⌊aspect * (input_height : ℚ)⌋).toNat)
    else r0
  let r2 :=
    if aspect < 1 then
      some (((⌊(input_width : ℚ) / aspect⌋).toNat, input_height))
    else r1
  let r3 := if aspect = 1 then some ((input_width, input_height)) else r2
  r3

/-- A three-dimensional numpy array over index space
`[0, d0) × [0, d1) × [0, d2)`, with a total value function. -/
structure Arr3 (α : Type) where
  d0 : Nat
  d1 : Nat
  d2 : Nat
  val : Nat → Nat → Nat → α

/-- `np.array([img, img, img])` for a 2-d grayscale image of shape `(H, W)`:
a `(3, H, W)` array replicating the image on axis 0. -/
def stack3 {α : Type} (img : Nat → Nat → α) (H W : Nat) : Arr3 α :=
  ⟨3, H, W, fun _ y x => img y x⟩

/-- `arr.swapaxes(0, 2)`: exchange axes 0 and 2. -/
def swapaxes02 {α : Type} (a : Arr3 α) : Arr3 α :=
  ⟨a.d2, a.d1, a.d0, fun i j k => a.val k j i⟩

/-- The grayscale branch of `Processing.load_image`:
`np.array([img, img, img]).swapaxes(0, 2)`. -/
def load_image_gray {α : Type} (img : Nat → Nat → α) (H W : Nat) : Arr3 α :=
  swapaxes02 (stack3 img H W)

/-- Numeric precision of a module's parameters (`fp16` after `.half()`,
`fp32` after `.float()`). -/
inductive Prec where
  | fp16
  | fp32
deriving DecidableEq, Repr

/-- A torch module tree: a batch-norm flag (`isinstance(module, _BatchNorm)`),
the precision of the module's own parameters, and `module.children()`. -/
inductive NNModule where
  | mk : Bool → Prec → List NNModule → NNModule

/-- `module.isBN`: whether the module is a batch-norm layer. -/
def NNModule.isBN : NNModule → Bool
  | .mk b _ _ => b

/-- The precision of the module's own parameters. -/
def NNModule.prec : NNModule → Prec
  | .mk _ p _ => p

mutual
/-- `module.half()` / `module.float()`: torch casts the module and all its
descendants, i.e. sets every precision in the subtree to `p`. -/
def setPrec (p : Prec) : NNModule → NNModule
  | .mk b _ cs => .mk b p (setPrecL p cs)
def setPrecL (p : Prec) : List NNModule → List NNModule
  | [] => []
  | c :: cs => setPrec p c :: setPrecL p cs
end

mutual
/-- All modules of the tree (the module itself and every strict descendant),
in depth-first order. -/
def descendants : NNModule → List NNModule
  | .mk b p cs => .mk b p cs :: descendantsL cs
def descendantsL : List NNModule → List NNModule
  | [] => []
  | c :: cs => descendants c ++ descendantsL cs
end

mutual
theorem sizeOf_setPrec (p : Prec) (m : NNModule) :
    sizeOf (setPrec p m) = sizeOf m := by
  match m with
  | .mk b q cs =>
    have h := sizeOf_setPrecL p cs
    cases p <;> cases q <;> simp [setPrec, h]
theorem sizeOf_setPrecL (p : Prec) (cs : List NNModule) :
    sizeOf (setPrecL p cs) = sizeOf cs := by
  match cs with
  | [] => rfl
  | c :: cs =>
    have h1 := sizeOf_setPrec p c
    have h2 := sizeOf_setPrecL p cs
    simp [setPrecL, h1, h2]
end

mutual
/-- `batchnorm_to_float(module)`: if the module is a batch-norm, cast it (and,
per torch semantics, its whole subtree) to full precision, then recurse into
the children; finally return the module. -/
def batchnorm_to_float : NNModule → NNModule
  | .mk b p cs =>
    if b then .mk b Prec.fp32 (bnfL (setPrecL Prec.fp32 cs))
    else .mk b p (bnfL cs)
termination_by m => sizeOf m
decreasing_by
  all_goals simp [sizeOf_setPrecL] <;> omega
def bnfL : List NNModule → List NNModule
  | [] => []
  | c :: cs => batchnorm_to_float c :: bnfL cs
termination_by cs => sizeOf cs
decreasing_by
  all_goals simp <;> omega
end

/-- `m = m.half(); m = batchnorm_to_float(m)` — the fp16 path of
`nvidia_ssd(model_math='fp16')`. -/
def nvidia_ssd_fp16 (m : NNModule) : NNModule :=
  batchnorm_to_float (setPrec Prec.fp16 m)

/-- Bridge between the Boolean `List.isPrefixOf` and the Prop `<+:`. -/
theorem isPrefixOf_eq_true_iff (a b : List Char) : a.isPrefixOf b = true ↔ a <+: b :=
  List.isPrefixOf_iff_prefix

/-- `pyFind s pat = -1` iff `pat` matches at no position of `s`. -/
theorem pyFind_eq_neg_one_iff (s pat : List Char) :
    pyFind s pat = -1 ↔ ∀ i : Nat, pat.isPrefixOf (s.drop i) = false := by
  unfold pyFind
  cases hf : (List.range (s.length + 1)).find? (fun i => pat.isPrefixOf (s.drop i)) with
  | some i =>
    have hpi : pat.isPrefixOf (s.drop i) = true := by
      have := List.find?_some hf
      simpa using this
    constructor
    · intro h
      exfalso
      have hcast : (i : Int) = -1 := h
      omega
    · intro hall
      exfalso
      rw [hall i] at hpi
      exact Bool.false_ne_true hpi
  | none =>
    have hn := List.find?_eq_none.mp hf
    constructor
    · intro _ i
      by_cases hi : i < s.length + 1
      · have hmem := hn i (List.mem_range.mpr hi)
        cases hb : pat.isPrefixOf (s.drop i) with
        | false => rfl
        | true => exact absurd hb hmem
      · have hdrop : s.drop i = [] := List.drop_eq_nil_of_le (by omega)
        rw [hdrop]
        cases pat with
        | nil =>
          exfalso
          have h0 := hn 0 (List.mem_range.mpr (by omega))
          simp at h0
        | cons a l => rfl
    · intro _
      trivial

/-- `pyFind s pat ≠ -1` iff `pat` occurs somewhere in `s`. -/
theorem pyFind_ne_neg_one_iff (s pat : List Char) :
    pyFind s pat ≠ -1 ↔ pat <:+: s := by
  constructor
  · intro h
    have hne := (not_iff_not.mpr (pyFind_eq_neg_one_iff s pat)).mp h
    push_neg at hne
    obtain ⟨i, hi⟩ := hne
    have hi' : pat.isPrefixOf (s.drop i) = true := by
      revert hi
      cases pat.isPrefixOf (s.drop i) <;> simp
    have hp : pat <+: s.drop i := (isPrefixOf_eq_true_iff pat (s.drop i)).mp hi'
    exact hp.isInfix.trans (List.drop_suffix i s).isInfix
  · intro h hne
    obtain ⟨u, t, hut⟩ := h
    have hp : pat.isPrefixOf (s.drop u.length) = true := by
      rw [isPrefixOf_eq_true_iff, ← hut, List.append_assoc, List.drop_left]
      exact ⟨t, rfl⟩
    have hz := (pyFind_eq_neg_one_iff s pat).mp hne u.length
    rw [hz] at hp
    exact Bool.false_ne_true hp

/-- If `pat` occurs nowhere in `s` (as characterized positionally),
`removeOccAux` leaves `s` unchanged. -/
theorem removeOccAux_id (pat : List Char) :
    ∀ (fuel : Nat) (s : List Char), (∀ i, pat.isPrefixOf (s.drop i) = false) →
      removeOccAux pat fuel s = s := by
  intro fuel
  induction fuel with
  | zero =>
    intro s _
    cases s <;> rfl
  | succ n ih =>
    intro s h
    cases s with
    | nil => rfl
    | cons c rest =>
      have h0 : pat.isPrefixOf (c :: rest) = false := h 0
      rw [removeOccAux, if_neg (by simp [h0])]
      congr 1
      exact ih rest (fun i => h (i + 1))

/-- If `pat` does not occur in `s` then `removeOcc pat s = s`. -/
theorem removeOcc_id (pat s : List Char) (h : pyFind s pat = -1) :
    removeOcc pat s = s :=
  removeOccAux_id pat s.length s ((pyFind_eq_neg_one_iff s pat).mp h)

/-- A key in which `"module."` does not occur is left unchanged by `stripKey`. -/
theorem stripKey_of_no_occurrence (k : List Char) (h : pyFind k moduleDot = -1) :
    stripKey k = k := by
  have hsub : moduleDot <:+: moduleDot1 := by decide
  have h1 : pyFind k moduleDot1 = -1 := by
    by_contra hne
    exact ((pyFind_ne_neg_one_iff k moduleDot).mpr
      (hsub.trans ((pyFind_ne_neg_one_iff k moduleDot1).mp hne))) h
  unfold stripKey
  rw [removeOcc_id _ _ h1, removeOcc_id _ _ h]

/-- Inserting a key not present in the dict appends it. -/
theorem dinsert_fresh {V : Type} (d : List (List Char × V)) (k : List Char) (v : V)
    (h : ∀ kv ∈ d, kv.1 ≠ k) : dinsert d k v = d ++ [(k, v)] := by
  unfold dinsert
  rw [if_neg]
  simp only [List.any_eq_true, beq_iff_eq, not_exists]
  intro kv
  simp only [not_and]
  exact h kv

/-- `unwrap_distributed`'s fold, under distinctness of the stripped keys,
appends the stripped entries in order. -/
theorem unwrap_foldl {V : Type} :
    ∀ (sd acc : List (List Char × V)),
      (acc.map Prod.fst ++ sd.map (fun kv => stripKey kv.1)).Nodup →
      sd.foldl (fun acc kv => dinsert acc (stripKey kv.1) kv.2) acc =
        acc ++ sd.map (fun kv => (stripKey kv.1, kv.2))
  | [], acc, _ => by simp
  | kv :: rest, acc, h => by
    rw [List.foldl_cons]
    have hdisj := (List.nodup_append.mp h).2.2
    have hk : ∀ p ∈ acc, p.1 ≠ stripKey kv.1 := by
      intro p hp heq
      apply hdisj (List.mem_map_of_mem Prod.fst hp)
      rw [heq]
      exact List.mem_map_of_mem _ (List.mem_cons_self kv rest)
    rw [dinsert_fresh acc _ kv.2 hk]
    have h' : ((acc ++ [(stripKey kv.1, kv.2)]).map Prod.fst ++
        rest.map (fun kv => stripKey kv.1)).Nodup := by
      simpa [List.append_assoc] using h
    rw [unwrap_foldl rest _ h']
    simp

/-- Under distinctness of stripped keys, `unwrap_distributed` maps `stripKey`
over the keys, preserving order and values. -/
theorem unwrap_distributed_eq_map {V : Type} (sd : List (List Char × V))
    (hnd : (sd.map (fun kv => stripKey kv.1)).Nodup) :
    unwrap_distributed sd = sd.map (fun kv => (stripKey kv.1, kv.2)) := by
  have h0 : (([] : List (List Char × V)).map Prod.fst ++
      sd.map (fun kv => stripKey kv.1)).Nodup := by
    rw [List.map_nil, List.nil_append]
    exact hnd
  have h := unwrap_foldl sd [] h0
  rw [List.nil_append] at h
  unfold unwrap_distributed
  exact h

/-- C1 (counterexample): `unwrap_distributed` does not only strip prefixes.
The key `"a.module.b"` bears neither the literal `"module.1."` nor the
literal `"module."` as a prefix, yet it is changed (to `"a.b"`): the code
removes every occurrence of the substrings, not just leading ones. -/
theorem unwrap_distributed_not_only_at_start :
    unwrap_distributed [(("a.module.b").data, (0 : Nat))] = [(("a.b").data, 0)] ∧
    moduleDot1.isPrefixOf (("a.module.b").data) = false ∧
    moduleDot.isPrefixOf (("a.module.b").data) = false ∧
    ("a.b").data ≠ ("a.module.b").data := by decide

/-- C1 (amended): when the stripped keys are pairwise distinct,
`unwrap_distributed` produces the fresh mapping obtained by deleting every
occurrence of `"module.1."` and then `"module."` from each key (order and
values preserved), and any key in which `"module."` does not occur at all
is left unchanged. -/
theorem unwrap_distributed_strips_occurrences {V : Type} (sd : List (List Char × V))
    (hnd : (sd.map (fun kv => stripKey kv.1)).Nodup) :
    unwrap_distributed sd = sd.map (fun kv => (stripKey kv.1, kv.2)) ∧
    ∀ kv ∈ sd, pyFind kv.1 moduleDot = -1 → stripKey kv.1 = kv.1 :=
  ⟨unwrap_distributed_eq_map sd hnd, fun kv _ h => stripKey_of_no_occurrence kv.1 h⟩

/-- C1 (witness): the spec's concrete example,
`{"module.1.a.weight": x, "module.b.weight": y} → {"a.weight": x, "b.weight": y}`. -/
theorem unwrap_distributed_strips_occurrences_witness :
    unwrap_distributed
        [(("module.1.a.weight").data, (10 : Nat)), (("module.b.weight").data, 20)] =
      [(("a.weight").data, 10), (("b.weight").data, 20)] := by
  have h := (unwrap_distributed_strips_occurrences
    [(("module.1.a.weight").data, (10 : Nat)), (("module.b.weight").data, 20)]
    (by decide)).1
  rw [h]
  decide

/-- C3: on a key collision after stripping (`"module.a"` and `"module.1.a"`
both strip to `"a"`), `unwrap_distributed` raises nothing and silently
overwrites: the result holds only the later value. -/
theorem unwrap_distributed_collision_overwrites :
    unwrap_distributed [(("module.a").data, (1 : Nat)), (("module.1.a").data, 2)] =
      [(("a").data, 2)] ∧
    stripKey (("module.a").data) = stripKey (("module.1.a").data) ∧
    ("module.a").data ≠ ("module.1.a").data := by decide

/-- C8: `unwrap_distributed` never mutates its input dict: after the call the
input address still holds exactly the original key-value pairs, and the
result lives at a distinct, freshly allocated address. -/
theorem unwrap_distributed_no_mutation {V : Type}
    (heap : List (List (List Char × V))) (addr : Nat) (haddr : addr < heap.length) :
    (unwrapHeap heap addr).1.getD addr [] = heap.getD addr [] ∧
    (unwrapHeap heap addr).2 ≠ addr ∧
    (unwrapHeap heap addr).1.getD (unwrapHeap heap addr).2 [] =
      unwrap_distributed (heap.getD addr []) := by
  unfold unwrapHeap
  refine ⟨?_, by omega, ?_⟩
  · exact List.getD_append _ _ _ _ haddr
  · show (heap ++ [unwrap_distributed (heap.getD addr [])]).getD heap.length [] = _
    rw [List.getD_append_right _ _ _ _ (le_refl heap.length)]
    simp

/-- C8 (witness): concrete run of the heap model on a one-entry dict. -/
theorem unwrap_distributed_no_mutation_witness :
    (0 : Nat) < ([[(("module.x").data, (7 : Nat))]] : List _).length ∧
    (unwrapHeap [[(("module.x").data, (7 : Nat))]] 0).1.getD 0 [] =
      [(("module.x").data, (7 : Nat))] ∧
    (unwrapHeap [[(("module.x").data, (7 : Nat))]] 0).2 ≠ 0 := by
  have h := unwrap_distributed_no_mutation [[(("module.x").data, (7 : Nat))]] 0
    (by decide)
  exact ⟨by decide, h.1, h.2.1⟩

/-- C9: `checkpoint_from_distributed` returns true iff some key contains the
substring `"module."` anywhere, and the checkpoint step of `nvidia_ssd`
applies `unwrap_distributed` exactly when that predicate holds. -/
theorem checkpoint_from_distributed_spec {V : Type} (sd : List (List Char × V)) :
    (checkpoint_from_distributed sd = true ↔ ∃ kv ∈ sd, moduleDot <:+: kv.1) ∧
    nvidia_ssd_ckpt sd =
      (if checkpoint_from_distributed sd then unwrap_distributed sd else sd) := by
  refine ⟨?_, rfl⟩
  unfold checkpoint_from_distributed
  rw [List.any_eq_true]
  constructor
  · rintro ⟨kv, hkv, hp⟩
    refine ⟨kv, hkv, (pyFind_ne_neg_one_iff kv.1 moduleDot).mp ?_⟩
    simpa using hp
  · rintro ⟨kv, hkv, hinf⟩
    exact ⟨kv, hkv, by simpa using (pyFind_ne_neg_one_iff kv.1 moduleDot).mpr hinf⟩

/-- Indexing a parallel array by `argwhereGt` of the confidences equals
filtering the zipped pairs on the confidence predicate. -/
theorem npIndex_argwhereGt {α γ : Type} [LinearOrder γ] :
    ∀ (confs : List (Option γ)) (l : List α) (d : α) (t : Option γ),
      l.length = confs.length →
      npIndex l d (argwhereGt confs t) =
        ((l.zip confs).filter (fun p => fgt p.2 t)).map Prod.fst
  | [], l, _, t, hlen => by
    rw [List.length_eq_zero.mp hlen]
    rfl
  | c :: cs, l, d, t, hlen => by
    cases l with
    | nil => simp at hlen
    | cons x xs =>
      have ih := npIndex_argwhereGt cs xs d t (by simpa using hlen)
      by_cases hfc : fgt c t = true <;>
        simp [argwhereGt, npIndex, hfc, List.filter_cons, List.map_map,
          Function.comp_def] <;>
        simpa [npIndex] using ih

/-- Filtering the self-zipped confidence list projects to a plain filter. -/
theorem zip_self_filter {γ : Type} [LinearOrder γ] (confs : List (Option γ))
    (t : Option γ) :
    ((confs.zip confs).filter (fun p => fgt p.2 t)).map Prod.fst =
      confs.filter (fun c => fgt c t) := by
  induction confs with
  | nil => rfl
  | cons c cs ih =>
    by_cases hfc : fgt c t = true <;> simp [List.filter_cons, hfc, ih]

/-- Every index produced by `argwhereGt` is in range and satisfies the
confidence predicate. -/
theorem argwhereGt_mem {γ : Type} [LinearOrder γ] :
    ∀ (confs : List (Option γ)) (t : Option γ) (i : Nat),
      i ∈ argwhereGt confs t →
      i < confs.length ∧ fgt (confs.getD i none) t = true
  | [], _, i, hi => by simp [argwhereGt] at hi
  | c :: cs, t, i, hi => by
    rw [argwhereGt, List.mem_append] at hi
    rcases hi with hi | hi
    · rcases (by split at hi <;> simp_all : i = 0 ∧ fgt c t = true) with ⟨rfl, hc⟩
      exact ⟨by simp, hc⟩
    · rw [List.mem_map] at hi
      obtain ⟨j, hj, rfl⟩ := hi
      have := argwhereGt_mem cs t j hj
      exact ⟨by simp; omega, this.2⟩

/-- C2: `pick_best` is a pure, order-preserving filter: each of the three
parallel arrays retains exactly the entries whose confidence strictly
exceeds the threshold, in their original order; when nothing qualifies all
three results are empty (no error). -/
theorem pick_best_filters {α β γ : Type} [LinearOrder γ] (bboxes : List α)
    (classes : List β) (confidences : List (Option γ)) (threshold : Option γ)
    (da : α) (db : β) (h1 : bboxes.length = confidences.length)
    (h2 : classes.length = confidences.length) :
    pick_best bboxes classes confidences threshold da db =
      (((bboxes.zip confidences).filter (fun p => fgt p.2 threshold)).map Prod.fst,
       ((classes.zip confidences).filter (fun p => fgt p.2 threshold)).map Prod.fst,
       confidences.filter (fun c => fgt c threshold)) ∧
    ((∀ c ∈ confidences, fgt c threshold = false) →
      pick_best bboxes classes confidences threshold da db = ([], [], [])) := by
  have hmain :
      pick_best bboxes classes confidences threshold da db =
        (((bboxes.zip confidences).filter (fun p => fgt p.2 threshold)).map Prod.fst,
         ((classes.zip confidences).filter (fun p => fgt p.2 threshold)).map Prod.fst,
         confidences.filter (fun c => fgt c threshold)) := by
    unfold pick_best
    show (npIndex bboxes da (argwhereGt confidences threshold),
          npIndex classes db (argwhereGt confidences threshold),
          npIndex confidences none (argwhereGt confidences threshold)) = _
    rw [npIndex_argwhereGt confidences bboxes da threshold h1,
      npIndex_argwhereGt confidences classes db threshold h2,
      npIndex_argwhereGt confidences confidences none threshold rfl,
      zip_self_filter]
  refine ⟨hmain, fun hnone => ?_⟩
  have hA : (bboxes.zip confidences).filter (fun p => fgt p.2 threshold) = [] :=
    List.filter_eq_nil_iff.mpr
      (fun p hp => by simp [hnone p.2 (List.of_mem_zip hp).2])
  have hB : (classes.zip confidences).filter (fun p => fgt p.2 threshold) = [] :=
    List.filter_eq_nil_iff.mpr
      (fun p hp => by simp [hnone p.2 (List.of_mem_zip hp).2])
  have hC : confidences.filter (fun c => fgt c threshold) = [] :=
    List.filter_eq_nil_iff.mpr (fun c hc => by simp [hnone c hc])
  rw [hmain, hA, hB, hC]
  rfl

/-- C2 (witness): the spec's example — confidences `[0.1, 0.4, 0.9]` with
threshold `0.3` keep exactly the last two detections, order preserved. -/
theorem pick_best_filters_witness :
    pick_best ([10, 20, 30] : List Nat) ([1, 2, 3] : List Nat)
        [some ((1 : ℚ)/10), some ((4 : ℚ)/10), some ((9 : ℚ)/10)]
        (some ((3 : ℚ)/10)) 0 0 =
      ([20, 30], [2, 3], [some ((4 : ℚ)/10), some ((9 : ℚ)/10)]) := by
  have h := (pick_best_filters ([10, 20, 30] : List Nat) ([1, 2, 3] : List Nat)
    [some ((1 : ℚ)/10), some ((4 : ℚ)/10), some ((9 : ℚ)/10)]
    (some ((3 : ℚ)/10)) 0 0 rfl rfl).1
  rw [h]
  norm_num [List.zip, List.zipWith, List.filter_cons, fgt]

/-- C7: a NaN confidence never passes the filter: `confidence > threshold` is
false for NaN (`fgt none t = false`), so no retained confidence is NaN. -/
theorem pick_best_nan_never_selected {α β γ : Type} [LinearOrder γ]
    (bboxes : List α) (classes : List β) (confidences : List (Option γ))
    (threshold : Option γ) (da : α) (db : β) :
    (∀ x : Option γ, fgt none x = false) ∧
    ∀ c ∈ (pick_best bboxes classes confidences threshold da db).2.2, c ≠ none := by
  refine ⟨fun _ => rfl, fun c hc => ?_⟩
  obtain ⟨i, hi, rfl⟩ := List.mem_map.mp hc
  have hprop := (argwhereGt_mem confidences threshold i hi).2
  intro hnone
  rw [hnone] at hprop
  cases threshold <;> simp [fgt] at hprop

/-- C7 (witness): with a NaN in the confidence array only the real value is
selected, and the selected confidence is not NaN. -/
theorem pick_best_nan_never_selected_witness :
    (some (5 : ℤ) ∈
      (pick_best [10, 20] [1, 2] [(none : Option ℤ), some 5] (some 0) 0 0).2.2) ∧
    (some (5 : ℤ) : Option ℤ) ≠ none := by
  refine ⟨by decide, ?_⟩
  exact (pick_best_nan_never_selected [10, 20] [1, 2] [(none : Option ℤ), some 5]
    (some 0) 0 0).2 (some 5) (by decide)

/-- After updating key `k`, a `find?`-based lookup over the updated map hits
`(k, v)`, provided `k` was present. -/
theorem find?_map_update {V : Type} (d : List (List Char × V)) (k : List Char)
    (v : V) (h : d.any (fun kv => kv.1 == k) = true) :
    ((d.map (fun kv => if kv.1 == k then (k, v) else kv)).find?
      (fun kv => kv.1 == k)) = some (k, v) := by
  induction d with
  | nil => simp at h
  | cons kv rest ih =>
    by_cases hk : (kv.1 == k) = true
    · rw [List.map_cons, if_pos hk, List.find?_cons_of_pos _ (by simp)]
    · have h' : rest.any (fun kv => kv.1 == k) = true := by
        rcases List.any_eq_true.mp h with ⟨x, hx, hpx⟩
        rcases List.mem_cons.mp hx with rfl | hx'
        · exact absurd hpx (by simpa using hk)
        · exact List.any_eq_true.mpr ⟨x, hx', hpx⟩
      rw [List.map_cons, if_neg hk, List.find?_cons_of_neg _ (by simpa using hk),
        ih h']

/-- Appending a fresh `(k, v)` entry makes lookup of `k` hit it. -/
theorem find?_append_sing {V : Type} (d : List (List Char × V)) (k : List Char)
    (v : V) (h : d.any (fun kv => kv.1 == k) = false) :
    ((d ++ [(k, v)]).find? (fun kv => kv.1 == k)) = some (k, v) := by
  induction d with
  | nil => exact List.find?_cons_of_pos _ (by simp)
  | cons kv rest ih =>
    rw [List.any_cons, Bool.or_eq_false_iff] at h
    rw [List.cons_append, List.find?_cons_of_neg _ (by simp [h.1]), ih h.2]

/-- Looking up the just-inserted key yields the just-inserted value. -/
theorem dget_dinsert {V : Type} (d : List (List Char × V)) (k : List Char)
    (v : V) : dget (dinsert d k v) k = some v := by
  unfold dget dinsert
  by_cases h : d.any (fun kv => kv.1 == k) = true
  · rw [if_pos h, find?_map_update d k v h]
    rfl
  · rw [if_neg h, find?_append_sing d k v (Bool.eq_false_iff.mpr h)]
    rfl

/-- C5: `_download_checkpoint` always returns the local cache path
`<torch_home>/checkpoints/<basename url>`; if that file exists and
`force_reload` is false nothing is downloaded and the state is unchanged;
if the file is absent or `force_reload` is true, the URL is fetched exactly
once and its contents stored at the cache path. -/
theorem download_checkpoint_spec (torchHome : List Char)
    (fetch : List Char → List Char) (st : FSState) (checkpoint : List Char)
    (force_reload : Bool) :
    (_download_checkpoint torchHome fetch st checkpoint force_reload).2 =
      ckpt_file_path torchHome checkpoint ∧
    (fsHasFile st.files (ckpt_file_path torchHome checkpoint) = true →
      force_reload = false →
      _download_checkpoint torchHome fetch st checkpoint force_reload =
        (st, ckpt_file_path torchHome checkpoint)) ∧
    ((fsHasFile st.files (ckpt_file_path torchHome checkpoint) = false ∨
        force_reload = true) →
      (_download_checkpoint torchHome fetch st checkpoint force_reload).1.downloads =
          st.downloads ++ [checkpoint] ∧
      dget (_download_checkpoint torchHome fetch st checkpoint
          force_reload).1.files (ckpt_file_path torchHome checkpoint) =
        some (fetch checkpoint)) := by
  refine ⟨?_, ?_, ?_⟩
  · unfold _download_checkpoint
    split <;> rfl
  · intro hf hr
    unfold _download_checkpoint
    rw [hf, hr]
    rfl
  · intro h
    have hcond :
        (!fsHasFile st.files (ckpt_file_path torchHome checkpoint)
          || force_reload) = true := by
      rcases h with hf | hr
      · rw [hf]
        rfl
      · rw [hr, Bool.or_true]
    unfold _download_checkpoint
    rw [hcond]
    exact ⟨rfl, dget_dinsert _ _ _⟩

/-- C5 (witness): on an empty filesystem with `force_reload = false` the
checkpoint is downloaded once. -/
theorem download_checkpoint_spec_witness :
    (fsHasFile (FSState.mk [] []).files
        (ckpt_file_path ("/th").data (("http://host/ssd.pt").data)) = false ∨
      (false = true)) ∧
    (_download_checkpoint ("/th").data (fun _ => ("blob").data)
        (FSState.mk [] []) (("http://host/ssd.pt").data) false).1.downloads =
      (FSState.mk ([] : List (List Char × List Char))
        ([] : List (List Char))).downloads ++ [("http://host/ssd.pt").data] := by
  have h := (download_checkpoint_spec ("/th").data (fun _ => ("blob").data)
    (FSState.mk [] []) (("http://host/ssd.pt").data) false).2.2
    (Or.inl (by decide))
  exact ⟨Or.inl (by decide), h.1⟩

/-- C6: for positive height and width exactly one of the three aspect-ratio
branches fires, `imgScaled` is always assigned (the result is `some`), and
the `aspect == 1` equality branch is reachable exactly for square images. -/
theorem rescale_total (shape0 shape1 ih iw : Nat) (h0 : 0 < shape0)
    (h1 : 0 < shape1) :
    (rescale shape0 shape1 ih iw).isSome = true ∧
    ((((shape1 : ℚ) / (shape0 : ℚ) > 1) ∧ ¬((shape1 : ℚ) / (shape0 : ℚ) < 1) ∧
        ((shape1 : ℚ) / (shape0 : ℚ)) ≠ 1) ∨
      (((shape1 : ℚ) / (shape0 : ℚ) < 1) ∧ ¬((shape1 : ℚ) / (shape0 : ℚ) > 1) ∧
        ((shape1 : ℚ) / (shape0 : ℚ)) ≠ 1) ∨
      ((((shape1 : ℚ) / (shape0 : ℚ)) = 1) ∧ ¬((shape1 : ℚ) / (shape0 : ℚ) > 1) ∧
        ¬((shape1 : ℚ) / (shape0 : ℚ) < 1))) ∧
    (((shape1 : ℚ) / (shape0 : ℚ)) = 1 ↔ shape1 = shape0) := by
  have hq0 : (0 : ℚ) < (shape0 : ℚ) := by exact_mod_cast h0
  have hgt : ((shape1 : ℚ) / (shape0 : ℚ) > 1) ↔ shape0 < shape1 := by
    rw [gt_iff_lt, one_lt_div hq0]
    exact_mod_cast Iff.rfl
  have hlt : ((shape1 : ℚ) / (shape0 : ℚ) < 1) ↔ shape1 < shape0 := by
    rw [div_lt_one hq0]
    exact_mod_cast Iff.rfl
  have heq : (((shape1 : ℚ) / (shape0 : ℚ)) = 1) ↔ shape1 = shape0 := by
    rw [div_eq_one_iff_eq (ne_of_gt hq0)]
    exact_mod_cast Iff.rfl
  refine ⟨?_, ?_, heq⟩
  · rcases Nat.lt_trichotomy shape1 shape0 with hc | hc | hc
    · simp only [rescale]
      rw [if_neg (fun h => Nat.ne_of_lt hc (heq.mp h)), if_pos (hlt.mpr hc)]
      rfl
    · simp only [rescale]
      rw [if_pos (heq.mpr hc)]
      rfl
    · simp only [rescale]
      rw [if_neg (fun h => Nat.ne_of_gt hc (heq.mp h)),
        if_neg (fun h => Nat.lt_asymm hc (hlt.mp h)), if_pos (hgt.mpr hc)]
      rfl
  · rcases Nat.lt_trichotomy shape1 shape0 with hc | hc | hc
    · exact Or.inr (Or.inl ⟨hlt.mpr hc, fun h => Nat.lt_asymm hc (hgt.mp h),
        fun h => Nat.ne_of_lt hc (heq.mp h)⟩)
    · exact Or.inr (Or.inr ⟨heq.mpr hc, fun h => Nat.lt_irrefl _ (hc ▸ hgt.mp h),
        fun h => Nat.lt_irrefl _ (hc ▸ hlt.mp h)⟩)
    · exact Or.inl ⟨hgt.mpr hc, fun h => Nat.lt_asymm hc (hlt.mp h),
        fun h => Nat.ne_of_gt hc (heq.mp h)⟩

/-- C6 (witness): a landscape 2×3 image hits exactly one branch and the
result is assigned. -/
theorem rescale_total_witness :
    (0 : Nat) < 2 ∧ (0 : Nat) < 3 ∧ (rescale 2 3 300 300).isSome = true :=
  ⟨by decide, by decide, (rescale_total 2 3 300 300 (by decide) (by decide)).1⟩

/-- C10: a 2-d grayscale `(H, W)` image is returned as a `(W, H, 3)` array
whose value at `(i, j, c)` is the input value at `(j, i)` for every channel:
channels are replicated but the two spatial axes are transposed. -/
theorem load_image_gray_transposes {α : Type} (img : Nat → Nat → α) (H W : Nat) :
    (load_image_gray img H W).d0 = W ∧
    (load_image_gray img H W).d1 = H ∧
    (load_image_gray img H W).d2 = 3 ∧
    ∀ i j c : Nat, (load_image_gray img H W).val i j c = img j i :=
  ⟨rfl, rfl, rfl, fun _ _ _ => rfl⟩

/-- `setPrec` preserves the batch-norm flag. -/
theorem isBN_setPrec (p : Prec) (m : NNModule) : (setPrec p m).isBN = m.isBN := by
  match m with
  | .mk b q cs => rfl

/-- `setPrec` sets the root precision. -/
theorem prec_setPrec (p : Prec) (m : NNModule) : (setPrec p m).prec = p := by
  match m with
  | .mk b q cs => rfl

mutual
theorem descendants_setPrec (p : Prec) (m : NNModule) :
    descendants (setPrec p m) = (descendants m).map (setPrec p) := by
  match m with
  | .mk b q cs =>
    simp only [setPrec, descendants, List.map_cons, descendantsL_setPrec p cs]
theorem descendantsL_setPrec (p : Prec) (cs : List NNModule) :
    descendantsL (setPrecL p cs) = (descendantsL cs).map (setPrec p) := by
  match cs with
  | [] => simp only [setPrecL, descendantsL, List.map_nil]
  | c :: cs =>
    simp only [setPrecL, descendantsL, List.map_append,
      descendants_setPrec p c, descendantsL_setPrec p cs]
end

mutual
theorem setPrec_idem (p : Prec) (m : NNModule) :
    setPrec p (setPrec p m) = setPrec p m := by
  match m with
  | .mk b q cs =>
    simp only [setPrec, setPrecL_idem p cs]
theorem setPrecL_idem (p : Prec) (cs : List NNModule) :
    setPrecL p (setPrecL p cs) = setPrecL p cs := by
  match cs with
  | [] => simp only [setPrecL]
  | c :: cs =>
    simp only [setPrecL, setPrec_idem p c, setPrecL_idem p cs]
end

mutual
/-- On an all-fp32 subtree `batchnorm_to_float` is the identity. -/
theorem bnf_setPrec32 (m : NNModule) :
    batchnorm_to_float (setPrec Prec.fp32 m) = setPrec Prec.fp32 m := by
  match m with
  | .mk b q cs =>
    cases b with
    | true =>
      simp only [setPrec, batchnorm_to_float, if_pos, setPrecL_idem,
        bnfL_setPrec32 cs, if_true]
    | false =>
      simp only [setPrec, batchnorm_to_float, Bool.false_eq_true, if_false,
        bnfL_setPrec32 cs]
theorem bnfL_setPrec32 (cs : List NNModule) :
    bnfL (setPrecL Prec.fp32 cs) = setPrecL Prec.fp32 cs := by
  match cs with
  | [] => simp only [setPrecL, bnfL]
  | c :: cs =>
    simp only [setPrecL, bnfL, bnf_setPrec32 c, bnfL_setPrec32 cs]
end

mutual
/-- Every batch-norm node anywhere in the result of `batchnorm_to_float` is
in full precision. -/
theorem bnf_bn_fp32 (m : NNModule) :
    ∀ d ∈ descendants (batchnorm_to_float m), d.isBN = true → d.prec = Prec.fp32 := by
  match m with
  | .mk b q cs =>
    intro d hd hbn
    cases b with
    | true =>
      have he : batchnorm_to_float (.mk true q cs) =
          .mk true Prec.fp32 (setPrecL Prec.fp32 cs) := by
        simp only [batchnorm_to_float, if_true, bnfL_setPrec32 cs]
      rw [he, descendants] at hd
      rcases List.mem_cons.mp hd with rfl | hd'
      · rfl
      · rw [descendantsL_setPrec] at hd'
        obtain ⟨d', _, rfl⟩ := List.mem_map.mp hd'
        exact prec_setPrec Prec.fp32 d'
    | false =>
      have he : batchnorm_to_float (.mk false q cs) = .mk false q (bnfL cs) := by
        simp only [batchnorm_to_float, Bool.false_eq_true, if_false]
      rw [he, descendants] at hd
      rcases List.mem_cons.mp hd with rfl | hd'
      · exact absurd hbn (by simp [NNModule.isBN])
      · exact bnfL_bn_fp32 cs d hd' hbn
theorem bnfL_bn_fp32 (cs : List NNModule) :
    ∀ d ∈ descendantsL (bnfL cs), d.isBN = true → d.prec = Prec.fp32 := by
  match cs with
  | [] =>
    intro d hd
    simp [bnfL, descendantsL] at hd
  | c :: cs =>
    intro d hd hbn
    rw [show bnfL (c :: cs) = batchnorm_to_float c :: bnfL cs by
        simp only [bnfL], descendantsL] at hd
    rcases List.mem_append.mp hd with h | h
    · exact bnf_bn_fp32 c d h hbn
    · exact bnfL_bn_fp32 cs d h hbn
end

mutual
/-- On a batch-norm-free tree `batchnorm_to_float` is the identity. -/
theorem bnf_id_no_bn (m : NNModule) :
    (∀ a ∈ descendants m, a.isBN = false) → batchnorm_to_float m = m := by
  match m with
  | .mk b q cs =>
    intro h
    have hb : b = false := h (.mk b q cs) (by
      rw [descendants]
      exact List.mem_cons_self _ _)
    subst hb
    simp only [batchnorm_to_float, Bool.false_eq_true, if_false,
      bnfL_id_no_bn cs
        (fun a ha => h a (by rw [descendants]; exact List.mem_cons_of_mem _ ha))]
theorem bnfL_id_no_bn (cs : List NNModule) :
    (∀ a ∈ descendantsL cs, a.isBN = false) → bnfL cs = cs := by
  match cs with
  | [] =>
    intro _
    simp only [bnfL]
  | c :: cs =>
    intro h
    simp only [bnfL,
      bnf_id_no_bn c
        (fun a ha => h a (by rw [descendantsL]; exact List.mem_append_left _ ha)),
      bnfL_id_no_bn cs
        (fun a ha => h a (by rw [descendantsL]; exact List.mem_append_right _ ha))]
end

mutual
/-- `batchnorm_to_float` walks and rebuilds the whole tree: the number of
descendants is preserved. -/
theorem bnf_desc_length (m : NNModule) :
    (descendants (batchnorm_to_float m)).length = (descendants m).length := by
  match m with
  | .mk b q cs =>
    cases b with
    | true =>
      have he : batchnorm_to_float (.mk true q cs) =
          .mk true Prec.fp32 (setPrecL Prec.fp32 cs) := by
        simp only [batchnorm_to_float, if_true, bnfL_setPrec32 cs]
      rw [he, descendants, descendants, descendantsL_setPrec]
      simp
    | false =>
      have he : batchnorm_to_float (.mk false q cs) = .mk false q (bnfL cs) := by
        simp only [batchnorm_to_float, Bool.false_eq_true, if_false]
      rw [he, descendants, descendants]
      simp [bnfL_desc_length cs]
theorem bnfL_desc_length (cs : List NNModule) :
    (descendantsL (bnfL cs)).length = (descendantsL cs).length := by
  match cs with
  | [] => simp only [bnfL]
  | c :: cs =>
    rw [show bnfL (c :: cs) = batchnorm_to_float c :: bnfL cs by
        simp only [bnfL], descendantsL, descendantsL]
    simp [bnf_desc_length c, bnfL_desc_length cs]
end

/-- C4: after `nvidia_ssd`'s fp16 path (`m.half()` followed by the recursive
`batchnorm_to_float` walk), every batch-norm module at any depth is in full
precision; if the tree has no batch-norm at all, every module is in half
precision (the whole model was cast to half); and the walk rebuilds every
descendant (their number is preserved). -/
theorem nvidia_ssd_fp16_mixed_precision (m : NNModule) :
    (∀ d ∈ descendants (nvidia_ssd_fp16 m), d.isBN = true → d.prec = Prec.fp32) ∧
    ((∀ a ∈ descendants m, a.isBN = false) →
      ∀ d ∈ descendants (nvidia_ssd_fp16 m), d.prec = Prec.fp16) ∧
    (descendants (nvidia_ssd_fp16 m)).length = (descendants m).length := by
  refine ⟨fun d hd hbn => bnf_bn_fp32 (setPrec Prec.fp16 m) d hd hbn, ?_, ?_⟩
  · intro hno d hd
    have hhalf : ∀ a ∈ descendants (setPrec Prec.fp16 m), a.isBN = false := by
      intro a ha
      rw [descendants_setPrec] at ha
      obtain ⟨a', ha', rfl⟩ := List.mem_map.mp ha
      rw [isBN_setPrec]
      exact hno a' ha'
    rw [nvidia_ssd_fp16, bnf_id_no_bn (setPrec Prec.fp16 m) hhalf,
      descendants_setPrec] at hd
    obtain ⟨a', _, rfl⟩ := List.mem_map.mp hd
    exact prec_setPrec Prec.fp16 a'
  · rw [nvidia_ssd_fp16, bnf_desc_length, descendants_setPrec, List.length_map]

/-- C4 (witness): a two-module tree (plain root containing one batch-norm
child) ends with the root in fp16 and the batch-norm child in fp32. -/
theorem nvidia_ssd_fp16_mixed_precision_witness :
    (NNModule.mk true Prec.fp32 [] ∈
      descendants (nvidia_ssd_fp16
        (NNModule.mk false Prec.fp32 [NNModule.mk true Prec.fp32 []]))) ∧
    (NNModule.mk true Prec.fp32 []).isBN = true ∧
    (NNModule.mk true Prec.fp32 []).prec = Prec.fp32 := by
  have he : nvidia_ssd_fp16
      (NNModule.mk false Prec.fp32 [NNModule.mk true Prec.fp32 []]) =
      NNModule.mk false Prec.fp16 [NNModule.mk true Prec.fp32 []] := by
    rw [nvidia_ssd_fp16]
    simp only [setPrec, setPrecL, batchnorm_to_float, bnfL, if_true,
      Bool.false_eq_true, if_false]
  have hmem : NNModule.mk true Prec.fp32 [] ∈
      descendants (nvidia_ssd_fp16
        (NNModule.mk false Prec.fp32 [NNModule.mk true Prec.fp32 []])) := by
    rw [he, descendants, descendantsL, descendants, descendantsL]
    exact List.mem_cons_of_mem _ (by simp)
  exact ⟨hmem,
    rfl,
    (nvidia_ssd_fp16_mixed_precision
      (NNModule.mk false Prec.fp32 [NNModule.mk true Prec.fp32 []])).1
      (NNModule.mk true Prec.fp32 []) hmem rfl⟩
